import Mathlib

/-!
Verification of `khimera.plugins.create` (class `Plugin`) against its
natural-language specification.

The Python code manipulates mutable objects with reference semantics:
`Component` objects are mutated in place by `attach`, `ComponentSet`
objects (lists) are mutated by `append`/`remove`, and the plugin's
`components` dictionary is itself a mutable object that `filter(None)`
returns by reference.  We therefore embed the program over an explicit
heap: component records, list objects and dict objects live at natural
number addresses, and every operation is a function from heap to heap.

`Component`/`ComponentSet` (module `khimera.components.core`) and the
constrained containers (module `khimera.utils.factories`) are not part of
the provided sources; where their behaviour decides a claim they are
modelled from the spec, as marked in the doc comments below.
-/

namespace Khimera

/-- Python exceptions that the modelled code can raise. -/
inductive PyError where
  | keyError
  | valueError
  | typeError
  | stopIteration
deriving DecidableEq, Repr

/-- A `Component` object's mutable record.

Modelled from the spec: `khimera.components.core.Component` is not under
the provided sources.  Per the spec, a component exposes `name : string`
and an owner back-reference (`plugin`) written by `attach`.  `cats` lists
the names of all classes of which the object is an instance (its method
resolution order), so that `isinstance(obj, C)` is `"C" ∈ cats`; an object
satisfying the `Component` contract has `"Component" ∈ cats`. -/
structure CompRec where
  name : String
  cats : List String
  plugin : Option String
deriving DecidableEq, Repr

/-- `isinstance(c, category)` for a component record and a class name. -/
def CompRec.instOf (c : CompRec) (category : String) : Bool :=
  c.cats.contains category

/-- `isinstance(c, Component)`: the check performed by the
`ComponentSet` constrained list when appending. -/
def CompRec.isComponent (c : CompRec) : Bool :=
  c.instOf "Component"

/-- The heap: partial maps from addresses to component records, list
objects (a `ComponentSet` is a list of component addresses) and dict
objects (the `components` mapping is an ordered association list from
field keys to list addresses).  `next` is the next free address. -/
structure Heap where
  comps : Nat → Option CompRec
  lists : Nat → Option (List Nat)
  dicts : Nat → Option (List (String × Nat))
  next : Nat

/-- Pointwise update of a partial map. -/
def upd {α : Type} (f : Nat → Option α) (a : Nat) (v : α) : Nat → Option α :=
  fun n => if n = a then some v else f n

theorem upd_self {α : Type} (f : Nat → Option α) (a : Nat) (v : α) :
    upd f a v a = some v := by
  simp [upd]

theorem upd_ne {α : Type} (f : Nat → Option α) (a : Nat) (v : α) {n : Nat}
    (h : n ≠ a) : upd f a v n = f n := by
  simp [upd, h]

/-- Allocate a fresh component object. -/
def Heap.allocComp (st : Heap) (c : CompRec) : Heap × Nat :=
  ({ st with comps := upd st.comps st.next c, next := st.next + 1 }, st.next)

/-- Allocate a fresh list object (`ComponentSet()` or a copied list). -/
def Heap.allocList (st : Heap) (l : List Nat) : Heap × Nat :=
  ({ st with lists := upd st.lists st.next l, next := st.next + 1 }, st.next)

/-- Allocate a fresh dict object. -/
def Heap.allocDict (st : Heap) (d : List (String × Nat)) : Heap × Nat :=
  ({ st with dicts := upd st.dicts st.next d, next := st.next + 1 }, st.next)

/-- `contrib.attach(pname)`.

Modelled from the spec: `Component.attach` is not under the provided
sources.  Per the spec it records the provider's name as the component's
owner, unconditionally overwriting any prior owner stamp. -/
def Heap.attach (st : Heap) (a : Nat) (pname : String) : Heap :=
  match st.comps a with
  | some c => { st with comps := upd st.comps a { c with plugin := some pname } }
  | none => st

/-- Lookup in a Python dict (ordered association list, unique keys). -/
def dictLookup (d : List (String × Nat)) (k : String) : Option Nat :=
  match d with
  | [] => none
  | (k', v) :: rest => if k' = k then some v else dictLookup rest k

/-- `d[k] = v` on a Python dict: replace in place if the key exists,
otherwise append at the end (insertion order). -/
def dictInsert (d : List (String × Nat)) (k : String) (v : Nat) :
    List (String × Nat) :=
  match d with
  | [] => [(k, v)]
  | (k', v') :: rest =>
    if k' = k then (k, v) :: rest else (k', v') :: dictInsert rest k v

/-- `del d[k]` on a Python dict (key assumed present by the caller). -/
def dictDel (d : List (String × Nat)) (k : String) : List (String × Nat) :=
  match d with
  | [] => []
  | (k', v') :: rest => if k' = k then rest else (k', v') :: dictDel rest k

/-- `l.remove(x)` on a Python list of objects (identity equality):
drop the first occurrence of address `a`. -/
def removeFirst (l : List Nat) (a : Nat) : List Nat :=
  match l with
  | [] => []
  | b :: rest => if b = a then rest else b :: removeFirst rest a

/-- The `Plugin` object: metadata plus the address of its `components`
dict (`model` is an opaque reference, kept as a string token). -/
structure Plugin where
  model : String
  name : String
  version : Option String
  components : Nat

/-- The dict object held by the plugin's `components` attribute. -/
def Plugin.dict (st : Heap) (p : Plugin) : List (String × Nat) :=
  (st.dicts p.components).getD []

/-- First statement of `Plugin.add` (create.py lines 127-128): if `key`
is not yet a key of `self.components`, store a fresh empty
`ComponentSet` under it. -/
def Plugin.ensureKey (st : Heap) (p : Plugin) (key : String) : Heap :=
  match dictLookup (p.dict st) key with
  | some _ => st
  | none =>
    let r := st.allocList []
    { r.1 with dicts := upd r.1.dicts p.components (dictInsert (p.dict st) key r.2) }

/-- Third statement of `Plugin.add` (create.py line 130):
`self.components[key].append(contrib)`.  The `ComponentSet` constrained
list accepts the element only if it is an instance of `Component`,
raising `TypeError` otherwise (that check is modelled from the spec, the
constrained containers not being under the provided sources). -/
def Plugin.appendContrib (st : Heap) (p : Plugin) (key : String) (contrib : Nat) :
    Heap × Option PyError :=
  match dictLookup (p.dict st) key with
  | none => (st, some PyError.keyError)
  | some la =>
    match st.comps contrib with
    | none => (st, some PyError.typeError)
    | some c =>
      if c.isComponent then
        ({ st with lists := upd st.lists la (((st.lists la).getD []) ++ [contrib]) }, none)
      else (st, some PyError.typeError)

/-- `Plugin.add(key, contrib)` (create.py lines 127-131): initialize the
key's storage if absent, then `contrib.attach(self.name)`, then append
`contrib` to `self.components[key]`. -/
def Plugin.add (st : Heap) (p : Plugin) (key : String) (contrib : Nat) :
    Heap × Option PyError :=
  Plugin.appendContrib (Heap.attach (Plugin.ensureKey st p key) contrib p.name) p key contrib

/-- `Plugin.remove(key, contrib_name)` (create.py lines 157-167):
`KeyError` if `key` is absent; with no `contrib_name`, delete the whole
entry; otherwise `next(c for c in set if c.name == contrib_name)` finds
the first component with that name and `set.remove` drops it.  When no
component matches, `next` (called with no default) raises
`StopIteration`, which the `except ValueError` clause does not catch. -/
def Plugin.remove (st : Heap) (p : Plugin) (key : String)
    (contribName : Option String) : Heap × Option PyError :=
  match dictLookup (p.dict st) key with
  | none => (st, some PyError.keyError)
  | some la =>
    match contribName with
    | none =>
      ({ st with dicts := upd st.dicts p.components (dictDel (p.dict st) key) }, none)
    | some n =>
      let l := (st.lists la).getD []
      match l.find? (fun a => ((st.comps a).map CompRec.name) = some n) with
      | none => (st, some PyError.stopIteration)
      | some a => ({ st with lists := upd st.lists la (removeFirst l a) }, none)

/-- `Plugin.get(key)` (create.py lines 169-183):
`self.components.get(key, [])`.  Observed as the contents of the
component set stored under `key`, or the empty sequence. -/
def Plugin.get (st : Heap) (p : Plugin) (key : String) : List Nat :=
  match dictLookup (p.dict st) key with
  | none => []
  | some la => (st.lists la).getD []

/-- Does the set at list address `la` contain an instance of `category`?
(`any(isinstance(item, category) for item in contribs)`). -/
def setHasInstance (st : Heap) (la : Nat) (category : String) : Bool :=
  ((st.lists la).getD []).any (fun a => ((st.comps a).map (·.instOf category)).getD false)

/-- `Plugin.filter(category)` (create.py lines 200-202):
with a (truthy) category, build a new dict keeping exactly the entries
whose set holds at least one instance of the category — the values are
the original list objects, not copies; with `None`, return
`self.components` itself (the same dict object). -/
def Plugin.filter (st : Heap) (p : Plugin) (category : Option String) :
    Heap × Nat :=
  match category with
  | some cat =>
    st.allocDict ((p.dict st).filter (fun e => setHasInstance st e.2 cat))
  | none => (st, p.components)

/-- External mutation of a dict object: `d[k] = la` performed by a caller
holding a reference to the dict at address `da`. -/
def Heap.dictSetEntry (st : Heap) (da : Nat) (k : String) (la : Nat) : Heap :=
  { st with dicts := upd st.dicts da (dictInsert ((st.dicts da).getD []) k la) }

/-- Duplicate every component of a list into fresh heap cells (the inner
step of `copy.deepcopy` over a `ComponentSet`). -/
def copyComps (st : Heap) (l : List Nat) : Heap × List Nat :=
  match l with
  | [] => (st, [])
  | a :: rest =>
    let (st1, a') := st.allocComp ((st.comps a).getD ⟨"", [], none⟩)
    let (st2, rest') := copyComps st1 rest
    (st2, a' :: rest')

/-- Duplicate every `(key, ComponentSet)` entry of the components dict,
each set into a fresh list object holding freshly copied components. -/
def copyEntries (st : Heap) (d : List (String × Nat)) : Heap × List (String × Nat) :=
  match d with
  | [] => (st, [])
  | (k, la) :: rest =>
    let (st1, l') := copyComps st ((st.lists la).getD [])
    let (st2, la') := st1.allocList l'
    let (st3, rest') := copyEntries st2 rest
    (st3, (k, la') :: rest')

/-- `Plugin.copy()` (create.py lines 204-217): `copy.deepcopy(self)` —
recursive duplication of the whole object graph: a fresh dict object
holding fresh list objects holding fresh component records with the same
contents.  (A component object reachable twice inside one plugin would be
copied once by `deepcopy`'s memoization; the claims below never involve
such internal sharing, and the duplication is modelled entry by entry.) -/
def Plugin.copy (st : Heap) (p : Plugin) : Heap × Plugin :=
  let (st1, d') := copyEntries st (p.dict st)
  let (st2, da) := st1.allocDict d'
  (st2, ⟨p.model, p.name, p.version, da⟩)

/-! ### The constrained containers (`khimera.utils.factories`)

`TypeConstrainedList` and `TypeConstrainedDict` are not under the
provided sources; they are modelled from the spec over dynamically typed
values. -/

/-- A runtime type tag of a Python value. -/
inductive PyType where
  | tInt
  | tStr
  | tComp
deriving DecidableEq, Repr

/-- A dynamically typed Python value, as stored in a constrained
container. -/
inductive PyVal where
  | vInt (i : Int)
  | vStr (s : String)
  | vComp (c : CompRec)
deriving DecidableEq, Repr

/-- The `isinstance`-style check of a value against a declared type. -/
def PyVal.isa : PyVal → PyType → Bool
  | .vInt _, .tInt => true
  | .vStr _, .tStr => true
  | .vComp _, .tComp => true
  | _, _ => false

/-- Modelled from the spec: `TypeConstrainedList` (not under the provided
sources) is an ordered mutable sequence with a declared element type;
every mutating operation checks each candidate element against the
declared type before storing it. -/
structure TypeConstrainedList where
  itemType : PyType
  data : List PyVal
deriving DecidableEq, Repr

/-- Modelled from the spec: `append` checks the element's type before
storing; on failure it raises `TypeError` with the list unchanged. -/
def TypeConstrainedList.append (l : TypeConstrainedList) (v : PyVal) :
    TypeConstrainedList × Option PyError :=
  if v.isa l.itemType then ({ l with data := l.data ++ [v] }, none)
  else (l, some PyError.typeError)

/-- Modelled from the spec: `insert(i, v)` checks the element's type
before storing; on failure it raises `TypeError` with the list
unchanged.  (Python's `list.insert` clamps the index.) -/
def TypeConstrainedList.insertAt (l : TypeConstrainedList) (i : Nat) (v : PyVal) :
    TypeConstrainedList × Option PyError :=
  if v.isa l.itemType then
    ({ l with data := l.data.take i ++ v :: l.data.drop i }, none)
  else (l, some PyError.typeError)

/-- Modelled from the spec: index assignment `l[i] = v` checks the
element's type before storing; on failure it raises `TypeError` with the
list unchanged. -/
def TypeConstrainedList.setItem (l : TypeConstrainedList) (i : Nat) (v : PyVal) :
    TypeConstrainedList × Option PyError :=
  if v.isa l.itemType then ({ l with data := l.data.set i v }, none)
  else (l, some PyError.typeError)

/-- Modelled from the spec: `TypeConstrainedDict` (not under the provided
sources) is a mapping with declared key and value types; `__setitem__`
checks both before inserting/overwriting. -/
structure TypeConstrainedDict where
  keyType : PyType
  valueType : PyType
  data : List (PyVal × PyVal)
deriving DecidableEq, Repr

/-- `d[k] = v` on a dynamically typed ordered dict: replace in place if
the key exists, otherwise append. -/
def pyDictInsert (d : List (PyVal × PyVal)) (k v : PyVal) : List (PyVal × PyVal) :=
  match d with
  | [] => [(k, v)]
  | (k', v') :: rest =>
    if k' = k then (k, v) :: rest else (k', v') :: pyDictInsert rest k v

/-- Modelled from the spec: `__setitem__` fails with `TypeError`, the
mapping unchanged, if the key or the value does not satisfy the declared
types; otherwise it inserts or overwrites. -/
def TypeConstrainedDict.setItem (d : TypeConstrainedDict) (k v : PyVal) :
    TypeConstrainedDict × Option PyError :=
  if k.isa d.keyType && v.isa d.valueType then
    ({ d with data := pyDictInsert d.data k v }, none)
  else (d, some PyError.typeError)

/-! ### Basic lemmas on the dict operations -/

theorem dictLookup_dictInsert_self (d : List (String × Nat)) (k : String) (v : Nat) :
    dictLookup (dictInsert d k v) k = some v := by
  induction d with
  | nil => simp [dictInsert, dictLookup]
  | cons e rest ih =>
    obtain ⟨k', v'⟩ := e
    by_cases h : k' = k
    · simp [dictInsert, dictLookup, h]
    · simp [dictInsert, dictLookup, h, ih]

theorem dictLookup_dictInsert_ne (d : List (String × Nat)) (k : String) (v : Nat)
    {k2 : String} (h : k2 ≠ k) :
    dictLookup (dictInsert d k v) k2 = dictLookup d k2 := by
  have hk2k : k ≠ k2 := Ne.symm h
  induction d with
  | nil => simp [dictInsert, dictLookup, hk2k]
  | cons e rest ih =>
    obtain ⟨k', v'⟩ := e
    by_cases hk : k' = k
    · subst hk
      simp [dictInsert, dictLookup, hk2k]
    · simp only [dictInsert, if_neg hk, dictLookup]
      by_cases hk2 : k' = k2
      · simp [hk2]
      · simp [hk2, ih]

/-! ### Frame lemmas for the steps of `add` -/

theorem attach_comps_self (st : Heap) (a : Nat) (pname : String) (c : CompRec)
    (hc : st.comps a = some c) :
    (Heap.attach st a pname).comps = upd st.comps a { c with plugin := some pname } := by
  simp [Heap.attach, hc]

theorem attach_comps_ne (st : Heap) (a : Nat) (pname : String) {n : Nat}
    (h : n ≠ a) : (Heap.attach st a pname).comps n = st.comps n := by
  unfold Heap.attach
  split
  · exact upd_ne _ _ _ h
  · rfl

theorem attach_dicts (st : Heap) (a : Nat) (pname : String) :
    (Heap.attach st a pname).dicts = st.dicts := by
  unfold Heap.attach
  split <;> rfl

theorem attach_lists (st : Heap) (a : Nat) (pname : String) :
    (Heap.attach st a pname).lists = st.lists := by
  unfold Heap.attach
  split <;> rfl

theorem ensureKey_comps (st : Heap) (p : Plugin) (key : String) :
    (Plugin.ensureKey st p key).comps = st.comps := by
  unfold Plugin.ensureKey
  split <;> rfl

theorem appendContrib_comps (st : Heap) (p : Plugin) (key : String) (contrib : Nat) :
    (Plugin.appendContrib st p key contrib).1.comps = st.comps := by
  unfold Plugin.appendContrib
  split
  · rfl
  · split
    · rfl
    · split <;> rfl

theorem appendContrib_dicts (st : Heap) (p : Plugin) (key : String) (contrib : Nat) :
    (Plugin.appendContrib st p key contrib).1.dicts = st.dicts := by
  unfold Plugin.appendContrib
  split
  · rfl
  · split
    · rfl
    · split <;> rfl

/-- `add` rewrites the contribution's owner stamp and touches no other
component record. -/
theorem add_comps_self (st : Heap) (p : Plugin) (key : String) (a : Nat)
    (c : CompRec) (hc : st.comps a = some c) :
    (Plugin.add st p key a).1.comps = upd st.comps a { c with plugin := some p.name } := by
  unfold Plugin.add
  rw [appendContrib_comps,
    attach_comps_self _ _ _ c (by rw [ensureKey_comps]; exact hc), ensureKey_comps]

theorem add_comps_frame (st : Heap) (p : Plugin) (key : String) (a : Nat)
    {n : Nat} (h : n ≠ a) :
    (Plugin.add st p key a).1.comps n = st.comps n := by
  unfold Plugin.add
  rw [appendContrib_comps, attach_comps_ne _ _ _ h]
  rw [ensureKey_comps]

/-- Setting the owner stamp does not change the `isinstance` data. -/
theorem isComponent_set_plugin (c : CompRec) (o : Option String) :
    CompRec.isComponent { c with plugin := o } = c.isComponent := rfl

/-- After `ensureKey`, the key is bound to a list address whose current
contents are exactly what `get` observed before the call. -/
theorem ensureKey_spec (st : Heap) (p : Plugin) (key : String) :
    ∃ la, dictLookup (Plugin.dict (Plugin.ensureKey st p key) p) key = some la ∧
      ((Plugin.ensureKey st p key).lists la).getD [] = Plugin.get st p key := by
  unfold Plugin.ensureKey
  cases hd : dictLookup (p.dict st) key with
  | some la =>
    refine ⟨la, ?_, ?_⟩
    · simp [hd]
    · simp [hd, Plugin.get]
  | none =>
    refine ⟨st.next, ?_, ?_⟩
    · simp [hd, Plugin.dict, Heap.allocList, upd_self, dictLookup_dictInsert_self]
    · simp [hd, Plugin.get, Heap.allocList, upd_self]

theorem dict_attach (st : Heap) (p : Plugin) (a : Nat) (pname : String) :
    Plugin.dict (Heap.attach st a pname) p = Plugin.dict st p := by
  simp [Plugin.dict, attach_dicts]

/-- A successful append: the key is bound, the element satisfies the
`Component` check, and the set grows by that element at the end. -/
theorem appendContrib_ok (st : Heap) (p : Plugin) (key : String) (la a : Nat)
    (c : CompRec) (hla : dictLookup (p.dict st) key = some la)
    (hc : st.comps a = some c) (hcomp : c.isComponent = true) :
    (Plugin.appendContrib st p key a).2 = none ∧
    Plugin.get (Plugin.appendContrib st p key a).1 p key
      = (st.lists la).getD [] ++ [a] := by
  unfold Plugin.appendContrib
  simp only [hla, hc, hcomp, if_pos]
  constructor
  · trivial
  · have hla' : dictLookup ((st.dicts p.components).getD []) key = some la := hla
    simp [Plugin.get, Plugin.dict, hla', upd_self]

/-- A successful `add` appends the contribution to the key's set, which
`get` observes, whether or not the key existed before. -/
theorem add_ok (st : Heap) (p : Plugin) (key : String) (a : Nat) (c : CompRec)
    (hc : st.comps a = some c) (hcomp : c.isComponent = true) :
    (Plugin.add st p key a).2 = none ∧
    Plugin.get (Plugin.add st p key a).1 p key = Plugin.get st p key ++ [a] := by
  obtain ⟨la, hla, hl⟩ := ensureKey_spec st p key
  have hc1 : (Plugin.ensureKey st p key).comps a = some c := by
    rw [ensureKey_comps]; exact hc
  have hla2 : dictLookup
      (Plugin.dict (Heap.attach (Plugin.ensureKey st p key) a p.name) p) key
      = some la := by
    rw [dict_attach]; exact hla
  have hc2 : (Heap.attach (Plugin.ensureKey st p key) a p.name).comps a
      = some { c with plugin := some p.name } := by
    rw [attach_comps_self _ _ _ c hc1, upd_self]
  have hl2 : ((Heap.attach (Plugin.ensureKey st p key) a p.name).lists la).getD []
      = Plugin.get st p key := by
    rw [attach_lists]; exact hl
  have h := appendContrib_ok _ p key la a _ hla2 hc2
    (by rw [isComponent_set_plugin]; exact hcomp)
  exact ⟨h.1, by rw [Plugin.add, h.2, hl2]⟩

/-! ### A concrete state used by the witnesses

One plugin `p0` named `"p"`, holding under key `"k"` a single component
(at address 0) named `"a"`; address 4 holds a spare component named
`"b"` that belongs to no plugin's collections. -/

def cA : CompRec := ⟨"a", ["CategoryX", "Component"], none⟩

def cB : CompRec := ⟨"b", ["Component"], none⟩

def cC : CompRec := ⟨"c", ["Component"], none⟩

def st0 : Heap :=
  { comps := fun n =>
      if n = 0 then some cA else if n = 3 then some cC else
      if n = 4 then some cB else none
    lists := fun n => if n = 1 then some [0] else none
    dicts := fun n => if n = 2 then some [("k", 1)] else none
    next := 5 }

def p0 : Plugin := ⟨"M", "p", none, 2⟩

/-- A second plugin, used to overwrite an owner stamp. -/
def q0 : Plugin := ⟨"M2", "q", none, 2⟩

/-- A second concrete state: plugin `p1` holds, under `"k"`, components
`"a"` (address 0) then `"b"` (address 1). -/
def st1 : Heap :=
  { comps := fun n => if n = 0 then some cA else if n = 1 then some cB else none
    lists := fun n => if n = 2 then some [0, 1] else none
    dicts := fun n => if n = 3 then some [("k", 2)] else none
    next := 4 }

def p1 : Plugin := ⟨"M", "p", none, 3⟩

/-- An object that is not an instance of `Component` (address 0 of
`stX`), next to a plugin `pX` whose components dict is empty. -/
def cX : CompRec := ⟨"x", ["Widget"], none⟩

def stX : Heap :=
  { comps := fun n => if n = 0 then some cX else none
    lists := fun _ => none
    dicts := fun n => if n = 1 then some [] else none
    next := 2 }

def pX : Plugin := ⟨"M", "q", none, 1⟩

/-! ### Claims -/

/-- C2: for every plugin, `get(key)` returns the empty sequence when
`key` is absent from the components dict (and never fails — it raises no
exception by construction), and the contents of the stored Component Set
when `key` is present. -/
theorem get_returns_stored_or_empty (st : Heap) (p : Plugin) (key : String) :
    (dictLookup (p.dict st) key = none → Plugin.get st p key = []) ∧
    (∀ la l, dictLookup (p.dict st) key = some la → st.lists la = some l →
      Plugin.get st p key = l) := by
  constructor
  · intro h
    simp [Plugin.get, h]
  · intro la l hla hl
    simp [Plugin.get, hla, hl]

/-- Witness for C2 on the concrete state. -/
theorem get_returns_stored_or_empty_witness :
    Plugin.get st0 p0 "absent" = [] ∧ Plugin.get st0 p0 "k" = [0] :=
  ⟨(get_returns_stored_or_empty st0 p0 "absent").1 rfl,
   (get_returns_stored_or_empty st0 p0 "k").2 1 [0] rfl rfl⟩

/-- C5: every attempt to insert or assign into a constrained collection a
value whose type fails the declared constraint raises `TypeError` and
leaves the collection exactly as before — for `append`, `insert` and
index assignment on `TypeConstrainedList`, and key/value assignment on
`TypeConstrainedDict`. -/
theorem constrained_insert_illtyped_rejected (l : TypeConstrainedList)
    (d : TypeConstrainedDict) (v k w : PyVal) (i : Nat)
    (hv : v.isa l.itemType = false)
    (hkw : k.isa d.keyType = false ∨ w.isa d.valueType = false) :
    l.append v = (l, some PyError.typeError) ∧
    l.insertAt i v = (l, some PyError.typeError) ∧
    l.setItem i v = (l, some PyError.typeError) ∧
    d.setItem k w = (d, some PyError.typeError) := by
  refine ⟨?_, ?_, ?_, ?_⟩
  · simp [TypeConstrainedList.append, hv]
  · simp [TypeConstrainedList.insertAt, hv]
  · simp [TypeConstrainedList.setItem, hv]
  · rcases hkw with h | h <;> simp [TypeConstrainedDict.setItem, h]

/-- Witness for C5: an `int` into a list of components, and a string
value into a `str → int` dict. -/
theorem constrained_insert_illtyped_rejected_witness :
    TypeConstrainedList.append ⟨PyType.tComp, []⟩ (PyVal.vInt 7)
        = (⟨PyType.tComp, []⟩, some PyError.typeError) ∧
    TypeConstrainedList.insertAt ⟨PyType.tComp, []⟩ 0 (PyVal.vInt 7)
        = (⟨PyType.tComp, []⟩, some PyError.typeError) ∧
    TypeConstrainedList.setItem ⟨PyType.tComp, []⟩ 0 (PyVal.vInt 7)
        = (⟨PyType.tComp, []⟩, some PyError.typeError) ∧
    TypeConstrainedDict.setItem ⟨PyType.tStr, PyType.tInt, []⟩
        (PyVal.vStr "x") (PyVal.vStr "y")
        = (⟨PyType.tStr, PyType.tInt, []⟩, some PyError.typeError) := by
  have h := constrained_insert_illtyped_rejected ⟨PyType.tComp, []⟩
    ⟨PyType.tStr, PyType.tInt, []⟩ (PyVal.vInt 7) (PyVal.vStr "x") (PyVal.vStr "y") 0
    (by decide) (Or.inr (by decide))
  exact ⟨h.1, h.2.1, h.2.2.1, h.2.2.2⟩

/-- C3: `filter()` with no category returns the plugin's own
`components` dict object (same address, heap untouched), so a mutation
performed through the returned reference — here assigning a list address
`la` under key `k` — is immediately visible through the plugin's own
`get`. -/
theorem filter_none_returns_live_components (st : Heap) (p : Plugin) :
    Plugin.filter st p none = (st, p.components) ∧
    ∀ (k : String) (la : Nat),
      Plugin.get (st.dictSetEntry (Plugin.filter st p none).2 k la) p k
        = (st.lists la).getD [] := by
  constructor
  · rfl
  · intro k la
    simp [Plugin.filter, Plugin.get, Plugin.dict, Heap.dictSetEntry, upd_self,
      dictLookup_dictInsert_self]

/-- C1 concrete evaluation: on a plugin whose key `"k"` holds one
component named `"a"`, `remove("k", "b")` raises `StopIteration` — not
`ValueError` — and leaves the state unchanged: `next(...)` is called
with no default, and the `except ValueError` clause does not catch
`StopIteration`. -/
theorem remove_absent_name_raises_stop_iteration :
    Plugin.remove st0 p0 "k" (some "b") = (st0, some PyError.stopIteration) := by
  rfl

/-- C6 counterexample: on a plugin already holding a component (address
0) under key `"k"`, adding the distinct components 3 then 4 makes
`get("k")` yield `[0, 3, 4]`, not `[3, 4]` as the claim states for every
plugin. -/
theorem add_add_order_counterexample :
    Plugin.get (Plugin.add (Plugin.add st0 p0 "k" 3).1 p0 "k" 4).1 p0 "k"
        = [0, 3, 4] ∧
    Plugin.get (Plugin.add (Plugin.add st0 p0 "k" 3).1 p0 "k" 4).1 p0 "k"
        ≠ [3, 4] := by
  constructor
  · rfl
  · decide

/-- C6 (amended): on a plugin whose `get(key)` is initially empty — the
key being absent or its set empty — `add(key, c1)` then `add(key, c2)`
with distinct components succeed and `get(key)` yields exactly
`[c1, c2]`, in insertion order. -/
theorem add_add_insertion_order (st : Heap) (p : Plugin) (key : String)
    (a1 a2 : Nat) (c1 c2 : CompRec)
    (hget : Plugin.get st p key = [])
    (h1 : st.comps a1 = some c1) (h2 : st.comps a2 = some c2)
    (hc1 : c1.isComponent = true) (hc2 : c2.isComponent = true)
    (hne : a1 ≠ a2) :
    (Plugin.add st p key a1).2 = none ∧
    (Plugin.add (Plugin.add st p key a1).1 p key a2).2 = none ∧
    Plugin.get (Plugin.add (Plugin.add st p key a1).1 p key a2).1 p key
      = [a1, a2] := by
  obtain ⟨e1, g1⟩ := add_ok st p key a1 c1 h1 hc1
  have h2' : (Plugin.add st p key a1).1.comps a2 = some c2 := by
    rw [add_comps_frame st p key a1 (Ne.symm hne)]; exact h2
  obtain ⟨e2, g2⟩ := add_ok _ p key a2 c2 h2' hc2
  refine ⟨e1, e2, ?_⟩
  rw [g2, g1, hget]
  rfl

/-- Witness for C6 (amended): key `"j"` is absent from `p0`, and adding
components 3 then 4 yields `[3, 4]`. -/
theorem add_add_insertion_order_witness :
    (Plugin.add st0 p0 "j" 3).2 = none ∧
    (Plugin.add (Plugin.add st0 p0 "j" 3).1 p0 "j" 4).2 = none ∧
    Plugin.get (Plugin.add (Plugin.add st0 p0 "j" 3).1 p0 "j" 4).1 p0 "j"
      = [3, 4] :=
  add_add_insertion_order st0 p0 "j" 3 4 cC cB rfl rfl rfl (by decide) (by decide)
    (by decide)

/-- C7: `add(key, c)` stamps the plugin's name as `c`'s owner, and a
later `add` of the same component to a different plugin silently
overwrites that stamp with the second plugin's name. -/
theorem add_attach_owner_overwrite (st : Heap) (p q : Plugin) (key key2 : String)
    (a : Nat) (c : CompRec) (hc : st.comps a = some c) :
    (Plugin.add st p key a).1.comps a = some { c with plugin := some p.name } ∧
    (Plugin.add (Plugin.add st p key a).1 q key2 a).1.comps a
      = some { c with plugin := some q.name } := by
  have h1 : (Plugin.add st p key a).1.comps a
      = some { c with plugin := some p.name } := by
    rw [add_comps_self st p key a c hc, upd_self]
  refine ⟨h1, ?_⟩
  rw [add_comps_self _ q key2 a { c with plugin := some p.name } h1, upd_self]

/-- Witness for C7: component 4 (`"b"`) gets owner `"p"` after
`p0.add`, then owner `"q"` after `q0.add`. -/
theorem add_attach_owner_overwrite_witness :
    (Plugin.add st0 p0 "k" 4).1.comps 4 = some { cB with plugin := some "p" } ∧
    (Plugin.add (Plugin.add st0 p0 "k" 4).1 q0 "k" 4).1.comps 4
      = some { cB with plugin := some "q" } :=
  add_attach_owner_overwrite st0 p0 q0 "k" "k" 4 cB rfl

/-- C8: when key's set starts with a component whose name is the one
asked for, `remove(key, name)` drops exactly that first instance, `get`
then observes the remaining components, and the key itself stays bound
in the components dict even when the set becomes empty. -/
theorem remove_first_matching_name (st : Heap) (p : Plugin) (key : String)
    (la a1 : Nat) (rest : List Nat) (c1 : CompRec)
    (hla : dictLookup (p.dict st) key = some la)
    (hl : st.lists la = some (a1 :: rest))
    (hc1 : st.comps a1 = some c1) :
    (Plugin.remove st p key (some c1.name)).2 = none ∧
    Plugin.get (Plugin.remove st p key (some c1.name)).1 p key = rest ∧
    dictLookup (Plugin.dict (Plugin.remove st p key (some c1.name)).1 p) key
      = some la := by
  unfold Plugin.remove
  simp only [hla, hl]
  have hfind : List.find?
      (fun a => decide (((st.comps a).map CompRec.name) = some c1.name))
      ((some (a1 :: rest)).getD []) = some a1 := by
    simp [hc1]
  rw [hfind]
  refine ⟨rfl, ?_, ?_⟩
  · have hla' : dictLookup ((st.dicts p.components).getD []) key = some la := hla
    simp [Plugin.get, Plugin.dict, hla', upd_self, removeFirst]
  · have hla' : dictLookup ((st.dicts p.components).getD []) key = some la := hla
    simp [Plugin.dict, hla']

/-- Witness for C8: removing `"a"` from `p1`'s key `"k"` holding
`["a", "b"]` (addresses 0, 1) leaves `get("k") = [1]` and keeps the key
bound. -/
theorem remove_first_matching_name_witness :
    (Plugin.remove st1 p1 "k" (some cA.name)).2 = none ∧
    Plugin.get (Plugin.remove st1 p1 "k" (some cA.name)).1 p1 "k" = [1] ∧
    dictLookup (Plugin.dict (Plugin.remove st1 p1 "k" (some cA.name)).1 p1) "k"
      = some 2 :=
  remove_first_matching_name st1 p1 "k" 2 0 [1] cA rfl rfl rfl

/-- C4: `filter(category)` allocates a fresh mapping — a new dict
object, distinct from the plugin's own `components` — whose entries are
exactly the `(key, set)` pairs of the components dict whose set holds at
least one instance of the category, each key keeping its original,
unpruned list object; the rest of the heap is untouched. -/
theorem filter_category_keeps_full_sets (st : Heap) (p : Plugin) (cat : String)
    (d : List (String × Nat)) (hd : st.dicts p.components = some d)
    (hlt : p.components < st.next) :
    (Plugin.filter st p (some cat)).2 ≠ p.components ∧
    (Plugin.filter st p (some cat)).1.dicts (Plugin.filter st p (some cat)).2
      = some (d.filter (fun e => setHasInstance st e.2 cat)) ∧
    (∀ k la, (k, la) ∈ d.filter (fun e => setHasInstance st e.2 cat) ↔
      (k, la) ∈ d ∧
        ∃ a ∈ (st.lists la).getD [],
          ((st.comps a).map (·.instOf cat)).getD false = true) ∧
    (Plugin.filter st p (some cat)).1.comps = st.comps ∧
    (Plugin.filter st p (some cat)).1.lists = st.lists := by
  refine ⟨?_, ?_, ?_, rfl, rfl⟩
  · simp only [Plugin.filter, Heap.allocDict]
    exact fun h => absurd h.symm (Nat.ne_of_lt hlt)
  · simp [Plugin.filter, Heap.allocDict, Plugin.dict, hd, upd_self]
  · intro k la
    simp [List.mem_filter, setHasInstance, List.any_eq_true]

/-- Witness for C4 on the concrete state: component `"a"` is an instance
of `CategoryX`, so the key `"k"` survives with its original set. -/
theorem filter_category_keeps_full_sets_witness :
    (Plugin.filter st0 p0 (some "CategoryX")).2 ≠ p0.components ∧
    (Plugin.filter st0 p0 (some "CategoryX")).1.dicts
        (Plugin.filter st0 p0 (some "CategoryX")).2 = some [("k", 1)] := by
  have h := filter_category_keeps_full_sets st0 p0 "CategoryX" [("k", 1)] rfl
    (by decide)
  refine ⟨h.1, ?_⟩
  rw [h.2.1]
  rfl

/-- C10: `add` is not atomic.  On a key absent from the components dict
and a contribution that is not a `Component`, `add` raises `TypeError`
from the final append, yet leaves the key bound to a fresh empty set and
the contribution already stamped with the plugin's name, because the
empty-set initialization and the `attach` call precede the type-checked
append. -/
theorem add_failure_leaves_partial_state (st : Heap) (p : Plugin) (key : String)
    (a : Nat) (c : CompRec) (d : List (String × Nat))
    (hd : st.dicts p.components = some d)
    (habs : dictLookup d key = none)
    (hc : st.comps a = some c)
    (hnc : c.isComponent = false) :
    (Plugin.add st p key a).2 = some PyError.typeError ∧
    dictLookup (Plugin.dict (Plugin.add st p key a).1 p) key = some st.next ∧
    (Plugin.add st p key a).1.lists st.next = some [] ∧
    (Plugin.add st p key a).1.comps a = some { c with plugin := some p.name } := by
  have habs' : dictLookup (p.dict st) key = none := by
    simp only [Plugin.dict, hd, Option.getD_some]; exact habs
  have habs2 : dictLookup ((st.dicts p.components).getD []) key = none := habs'
  have h1d : Plugin.dict (Plugin.ensureKey st p key) p
      = dictInsert (p.dict st) key st.next := by
    unfold Plugin.ensureKey
    simp [habs2, Plugin.dict, Heap.allocList, upd_self]
  have h1l : (Plugin.ensureKey st p key).lists st.next = some [] := by
    unfold Plugin.ensureKey
    simp [habs', Heap.allocList, upd_self]
  have h2comps : (Heap.attach (Plugin.ensureKey st p key) a p.name).comps a
      = some { c with plugin := some p.name } := by
    rw [attach_comps_self _ _ _ c (by rw [ensureKey_comps]; exact hc), upd_self]
  have h2d : dictLookup
      (Plugin.dict (Heap.attach (Plugin.ensureKey st p key) a p.name) p) key
      = some st.next := by
    rw [dict_attach, h1d, dictLookup_dictInsert_self]
  have h2l : (Heap.attach (Plugin.ensureKey st p key) a p.name).lists st.next
      = some [] := by
    rw [attach_lists]; exact h1l
  unfold Plugin.add Plugin.appendContrib
  simp only [h2d, h2comps, isComponent_set_plugin, hnc, Bool.false_eq_true,
    if_false]
  simp [h2l]

/-- Witness for C10: adding the non-component object 0 to `pX` under the
fresh key `"k"` raises `TypeError`, yet binds `"k"` to a fresh empty set
(address 2) and stamps object 0 with owner `"q"`. -/
theorem add_failure_leaves_partial_state_witness :
    (Plugin.add stX pX "k" 0).2 = some PyError.typeError ∧
    dictLookup (Plugin.dict (Plugin.add stX pX "k" 0).1 pX) "k" = some 2 ∧
    (Plugin.add stX pX "k" 0).1.lists 2 = some [] ∧
    (Plugin.add stX pX "k" 0).1.comps 0 = some { cX with plugin := some "q" } :=
  add_failure_leaves_partial_state stX pX "k" 0 cX [] rfl rfl rfl (by decide)

/-! ### Lemmas on the deep copy -/

theorem copyComps_lists (st : Heap) (l : List Nat) :
    (copyComps st l).1.lists = st.lists := by
  induction l generalizing st with
  | nil => rfl
  | cons a rest ih => simp [copyComps, Heap.allocComp, ih]

theorem copyComps_dicts (st : Heap) (l : List Nat) :
    (copyComps st l).1.dicts = st.dicts := by
  induction l generalizing st with
  | nil => rfl
  | cons a rest ih => simp [copyComps, Heap.allocComp, ih]

theorem copyComps_next_le (st : Heap) (l : List Nat) :
    st.next ≤ (copyComps st l).1.next := by
  induction l generalizing st with
  | nil => exact le_refl _
  | cons a rest ih =>
    calc st.next ≤ st.next + 1 := Nat.le_succ _
      _ ≤ _ := ih ((st.allocComp ((st.comps a).getD ⟨"", [], none⟩)).1)

theorem copyComps_comps_lt (st : Heap) (l : List Nat) {n : Nat}
    (h : n < st.next) :
    (copyComps st l).1.comps n = st.comps n := by
  induction l generalizing st with
  | nil => rfl
  | cons a rest ih =>
    show (copyComps _ rest).1.comps n = _
    rw [ih _ (Nat.lt_succ_of_lt h)]
    exact upd_ne _ _ _ (Nat.ne_of_lt h)

theorem copyComps_out (st : Heap) (l : List Nat) (hl : ∀ b ∈ l, b < st.next) :
    ((copyComps st l).2.map (copyComps st l).1.comps)
      = l.map (fun b => some ((st.comps b).getD ⟨"", [], none⟩)) ∧
    ∀ b' ∈ (copyComps st l).2, st.next ≤ b' ∧ b' < (copyComps st l).1.next := by
  induction l generalizing st with
  | nil => exact ⟨rfl, by intro b' hb'; cases hb'⟩
  | cons a rest ih =>
    have ha := hl a (List.mem_cons_self a rest)
    set c0 := (st.comps a).getD ⟨"", [], none⟩ with hc0
    set st1 := (st.allocComp c0).1 with hst1
    have hn1 : st1.next = st.next + 1 := rfl
    have hrest : ∀ b ∈ rest, b < st1.next := by
      intro b hb
      rw [hn1]
      exact Nat.lt_succ_of_lt (hl b (List.mem_cons_of_mem a hb))
    obtain ⟨ihmap, ihbnd⟩ := ih st1 hrest
    have hcomps1 : ∀ b, b < st.next → st1.comps b = st.comps b := by
      intro b hb
      rw [hst1]
      exact upd_ne _ _ _ (Nat.ne_of_lt hb)
    have hmap2 : (copyComps st1 rest).2.map (copyComps st1 rest).1.comps
        = rest.map (fun b => some ((st.comps b).getD ⟨"", [], none⟩)) := by
      rw [ihmap]
      refine List.map_congr_left ?_
      intro b hb
      rw [hcomps1 b (hl b (List.mem_cons_of_mem a hb))]
    have hhead : (copyComps st1 rest).1.comps st.next = some c0 := by
      have h1 : (copyComps st1 rest).1.comps st.next = st1.comps st.next :=
        copyComps_comps_lt st1 rest (by rw [hn1]; exact Nat.lt_succ_self _)
      rw [h1, hst1]
      exact upd_self _ _ _
    constructor
    · show ((copyComps st1 rest).1.comps st.next) ::
          ((copyComps st1 rest).2.map (copyComps st1 rest).1.comps)
        = some c0 :: rest.map (fun b => some ((st.comps b).getD ⟨"", [], none⟩))
      rw [hhead, hmap2]
    · intro b' hb'
      have hb2 : b' ∈ st.next :: (copyComps st1 rest).2 := hb'
      have hnle : st1.next ≤ (copyComps st1 rest).1.next := copyComps_next_le st1 rest
      rcases List.mem_cons.mp hb2 with h | h
      · subst h
        refine ⟨le_refl _, ?_⟩
        show st.next < (copyComps st1 rest).1.next
        exact Nat.lt_of_lt_of_le (by rw [hn1]; exact Nat.lt_succ_self _) hnle
      · obtain ⟨h1, h2⟩ := ihbnd b' h
        refine ⟨?_, ?_⟩
        · calc st.next ≤ st1.next := by rw [hn1]; exact Nat.le_succ _
            _ ≤ b' := h1
        · exact h2

theorem copyEntries_dicts (st : Heap) (d : List (String × Nat)) :
    (copyEntries st d).1.dicts = st.dicts := by
  induction d generalizing st with
  | nil => rfl
  | cons e rest ih =>
    obtain ⟨k, la⟩ := e
    simp only [copyEntries, Heap.allocList, ih, copyComps_dicts]

theorem copyEntries_next_le (st : Heap) (d : List (String × Nat)) :
    st.next ≤ (copyEntries st d).1.next := by
  induction d generalizing st with
  | nil => exact le_refl _
  | cons e rest ih =>
    obtain ⟨k, la⟩ := e
    simp only [copyEntries, Heap.allocList]
    refine le_trans (le_trans (copyComps_next_le st ((st.lists la).getD []))
      (Nat.le_succ _)) ?_
    exact ih (((copyComps st ((st.lists la).getD [])).1.allocList
      (copyComps st ((st.lists la).getD [])).2).1)

theorem copyEntries_comps_lt (st : Heap) (d : List (String × Nat)) {n : Nat}
    (h : n < st.next) :
    (copyEntries st d).1.comps n = st.comps n := by
  induction d generalizing st with
  | nil => rfl
  | cons e rest ih =>
    obtain ⟨k, la⟩ := e
    simp only [copyEntries, Heap.allocList]
    rw [ih _ (Nat.lt_succ_of_lt (Nat.lt_of_lt_of_le h (copyComps_next_le _ _)))]
    exact copyComps_comps_lt _ _ h

theorem copyEntries_lists_lt (st : Heap) (d : List (String × Nat)) {n : Nat}
    (h : n < st.next) :
    (copyEntries st d).1.lists n = st.lists n := by
  induction d generalizing st with
  | nil => rfl
  | cons e rest ih =>
    obtain ⟨k, la⟩ := e
    simp only [copyEntries, Heap.allocList]
    rw [ih _ (Nat.lt_succ_of_lt (Nat.lt_of_lt_of_le h (copyComps_next_le _ _)))]
    show upd (copyComps st ((st.lists la).getD [])).1.lists
        (copyComps st ((st.lists la).getD [])).1.next
        (copyComps st ((st.lists la).getD [])).2 n = st.lists n
    rw [upd_ne _ _ _
      (Nat.ne_of_lt (Nat.lt_of_lt_of_le h (copyComps_next_le _ _)))]
    rw [copyComps_lists]

theorem copyEntries_lookup_none (st : Heap) (d : List (String × Nat))
    (key : String) (h : dictLookup d key = none) :
    dictLookup (copyEntries st d).2 key = none := by
  induction d generalizing st with
  | nil => rfl
  | cons e rest ih =>
    obtain ⟨k, la⟩ := e
    have hk : ¬ (k = key) := by
      intro hk
      simp [dictLookup, hk] at h
    simp only [dictLookup, hk, if_false] at h
    simp only [copyEntries, Heap.allocList, dictLookup, hk, if_false]
    exact ih _ h

theorem copyEntries_vals (st : Heap) (d : List (String × Nat)) :
    ∀ e ∈ (copyEntries st d).2,
      st.next ≤ e.2 ∧ e.2 < (copyEntries st d).1.next := by
  induction d generalizing st with
  | nil => intro e he; cases he
  | cons e0 rest ih =>
    obtain ⟨k, la⟩ := e0
    intro e he
    simp only [copyEntries, Heap.allocList] at he ⊢
    rcases List.mem_cons.mp he with h | h
    · subst h
      refine ⟨copyComps_next_le _ _, ?_⟩
      exact Nat.lt_of_lt_of_le (Nat.lt_succ_self _)
        (copyEntries_next_le (((copyComps st ((st.lists la).getD [])).1.allocList
          (copyComps st ((st.lists la).getD [])).2).1) rest)
    · obtain ⟨h1, h2⟩ := ih _ e h
      refine ⟨?_, h2⟩
      calc st.next ≤ (copyComps st ((st.lists la).getD [])).1.next :=
            copyComps_next_le _ _
        _ ≤ (copyComps st ((st.lists la).getD [])).1.next + 1 := Nat.le_succ _
        _ ≤ e.2 := h1

theorem dictLookup_mem (d : List (String × Nat)) (k : String) (v : Nat)
    (h : dictLookup d k = some v) : (k, v) ∈ d := by
  induction d with
  | nil => cases h
  | cons e rest ih =>
    obtain ⟨k', v'⟩ := e
    by_cases hk : k' = k
    · subst hk
      simp [dictLookup] at h
      subst h
      exact List.mem_cons_self _ _
    · simp only [dictLookup, if_neg hk] at h
      exact List.mem_cons_of_mem _ (ih h)

/-- The copied dict binds every key of the original to a fresh list
object whose elements are fresh component cells carrying the same
records as the original key's set. -/
theorem copyEntries_out (st : Heap) (d : List (String × Nat))
    (hwf : ∀ e ∈ d, e.2 < st.next)
    (hls : ∀ e ∈ d, ∀ b ∈ (st.lists e.2).getD [], b < st.next)
    (key : String) (la : Nat) (hla : dictLookup d key = some la) :
    ∃ la', dictLookup (copyEntries st d).2 key = some la' ∧
      st.next ≤ la' ∧ la' < (copyEntries st d).1.next ∧
      ∃ l', (copyEntries st d).1.lists la' = some l' ∧
        (∀ b' ∈ l', st.next ≤ b') ∧
        l'.map (copyEntries st d).1.comps
          = ((st.lists la).getD []).map
              (fun b => some ((st.comps b).getD ⟨"", [], none⟩)) := by
  induction d generalizing st with
  | nil => cases hla
  | cons e rest ih =>
    obtain ⟨k, la0⟩ := e
    have hla0lt : la0 < st.next := hwf (k, la0) (List.mem_cons_self _ _)
    have hl0 : ∀ b ∈ (st.lists la0).getD [], b < st.next :=
      hls (k, la0) (List.mem_cons_self _ _)
    obtain ⟨hcmap, hcbnd⟩ := copyComps_out st ((st.lists la0).getD []) hl0
    simp only [copyEntries, Heap.allocList]
    by_cases hk : k = key
    · subst hk
      simp [dictLookup] at hla
      subst hla
      refine ⟨(copyComps st ((st.lists la0).getD [])).1.next, ?_, ?_, ?_, ?_⟩
      · simp [dictLookup]
      · exact copyComps_next_le _ _
      · exact Nat.lt_of_lt_of_le (Nat.lt_succ_self _)
          (copyEntries_next_le (((copyComps st ((st.lists la0).getD [])).1.allocList
            (copyComps st ((st.lists la0).getD [])).2).1) rest)
      · refine ⟨(copyComps st ((st.lists la0).getD [])).2, ?_, ?_, ?_⟩
        · have h1 := copyEntries_lists_lt
            (((copyComps st ((st.lists la0).getD [])).1.allocList
              (copyComps st ((st.lists la0).getD [])).2).1) rest
            (Nat.lt_succ_self (copyComps st ((st.lists la0).getD [])).1.next)
          exact h1.trans (upd_self _ _ _)
        · intro b' hb'
          exact (hcbnd b' hb').1
        · have hcong : ∀ b' ∈ (copyComps st ((st.lists la0).getD [])).2,
              (copyEntries (((copyComps st ((st.lists la0).getD [])).1.allocList
                (copyComps st ((st.lists la0).getD [])).2).1) rest).1.comps b'
              = (copyComps st ((st.lists la0).getD [])).1.comps b' := by
            intro b' hb'
            exact copyEntries_comps_lt _ rest
              (Nat.lt_succ_of_lt (hcbnd b' hb').2)
          exact (List.map_congr_left hcong).trans hcmap
    · simp only [dictLookup, if_neg hk] at hla
      have hmem := dictLookup_mem rest key la hla
      have hlalt : la < st.next := hwf (key, la) (List.mem_cons_of_mem _ hmem)
      have hnext1 : st.next ≤ (copyComps st ((st.lists la0).getD [])).1.next :=
        copyComps_next_le _ _
      have hnext2 : st.next < (((copyComps st ((st.lists la0).getD [])).1.allocList
          (copyComps st ((st.lists la0).getD [])).2).1).next :=
        Nat.lt_succ_of_le hnext1
      have hlists2 : ∀ m, m < st.next →
          ((((copyComps st ((st.lists la0).getD [])).1.allocList
            (copyComps st ((st.lists la0).getD [])).2).1).lists m) = st.lists m := by
        intro m hm
        show upd (copyComps st ((st.lists la0).getD [])).1.lists
            (copyComps st ((st.lists la0).getD [])).1.next
            (copyComps st ((st.lists la0).getD [])).2 m = st.lists m
        rw [upd_ne _ _ _ (Nat.ne_of_lt (Nat.lt_of_lt_of_le hm hnext1))]
        rw [copyComps_lists]
      have hcomps2 : ∀ m, m < st.next →
          ((((copyComps st ((st.lists la0).getD [])).1.allocList
            (copyComps st ((st.lists la0).getD [])).2).1).comps m) = st.comps m := by
        intro m hm
        show (copyComps st ((st.lists la0).getD [])).1.comps m = st.comps m
        exact copyComps_comps_lt _ _ hm
      have hwf2 : ∀ e ∈ rest, e.2 < (((copyComps st ((st.lists la0).getD [])).1.allocList
          (copyComps st ((st.lists la0).getD [])).2).1).next := by
        intro e he
        exact Nat.lt_trans (hwf e (List.mem_cons_of_mem _ he)) hnext2
      have hls2 : ∀ e ∈ rest,
          ∀ b ∈ (((((copyComps st ((st.lists la0).getD [])).1.allocList
            (copyComps st ((st.lists la0).getD [])).2).1).lists e.2).getD []),
            b < (((copyComps st ((st.lists la0).getD [])).1.allocList
              (copyComps st ((st.lists la0).getD [])).2).1).next := by
        intro e he b hb
        rw [hlists2 e.2 (hwf e (List.mem_cons_of_mem _ he))] at hb
        exact Nat.lt_trans (hls e (List.mem_cons_of_mem _ he) b hb) hnext2
      obtain ⟨la', hlook, hge, hlt, l', hl', hbnds, hmap⟩ :=
        ih (((copyComps st ((st.lists la0).getD [])).1.allocList
          (copyComps st ((st.lists la0).getD [])).2).1) hwf2 hls2 hla
      refine ⟨la', ?_, ?_, hlt, l', hl', ?_, ?_⟩
      · simp only [dictLookup, if_neg hk]
        exact hlook
      · exact le_trans (le_of_lt hnext2) hge
      · intro b' hb'
        exact le_trans (le_of_lt hnext2) (hbnds b' hb')
      · refine hmap.trans ?_
        rw [hlists2 la hlalt]
        refine List.map_congr_left ?_
        intro b hb
        rw [hcomps2 b (hls (key, la) (List.mem_cons_of_mem _ hmem) b hb)]

theorem copy_components_ge (st : Heap) (p : Plugin) :
    st.next ≤ (Plugin.copy st p).2.components :=
  copyEntries_next_le st (Plugin.dict st p)

theorem copy_comps_lt (st : Heap) (p : Plugin) {n : Nat} (h : n < st.next) :
    (Plugin.copy st p).1.comps n = st.comps n :=
  copyEntries_comps_lt st (Plugin.dict st p) h

theorem copy_lists_lt (st : Heap) (p : Plugin) {n : Nat} (h : n < st.next) :
    (Plugin.copy st p).1.lists n = st.lists n :=
  copyEntries_lists_lt st (Plugin.dict st p) h

theorem copy_dicts_lt (st : Heap) (p : Plugin) {n : Nat} (h : n < st.next) :
    (Plugin.copy st p).1.dicts n = st.dicts n := by
  show upd (copyEntries st (Plugin.dict st p)).1.dicts
      (copyEntries st (Plugin.dict st p)).1.next
      (copyEntries st (Plugin.dict st p)).2 n = st.dicts n
  rw [upd_ne _ _ _ (Nat.ne_of_lt (Nat.lt_of_lt_of_le h (copyEntries_next_le _ _)))]
  exact congrFun (copyEntries_dicts st (Plugin.dict st p)) n

theorem copy_clone_dict (st : Heap) (p : Plugin) :
    (Plugin.copy st p).1.dicts (Plugin.copy st p).2.components
      = some (copyEntries st (Plugin.dict st p)).2 := by
  show upd (copyEntries st (Plugin.dict st p)).1.dicts
      (copyEntries st (Plugin.dict st p)).1.next
      (copyEntries st (Plugin.dict st p)).2
      (copyEntries st (Plugin.dict st p)).1.next = _
  exact upd_self _ _ _

/-- `get` only looks at the plugin's dict object and the list object the
key binds. -/
theorem get_congr (st st' : Heap) (p : Plugin) (key : String)
    (hdict : st'.dicts p.components = st.dicts p.components)
    (hlist : ∀ la, dictLookup (Plugin.dict st p) key = some la →
      st'.lists la = st.lists la) :
    Plugin.get st' p key = Plugin.get st p key := by
  unfold Plugin.get Plugin.dict
  rw [hdict]
  cases h : dictLookup ((st.dicts p.components).getD []) key with
  | none => rfl
  | some la =>
    show (st'.lists la).getD [] = (st.lists la).getD []
    rw [hlist la h]

theorem add_dicts_frame (st : Heap) (q : Plugin) (key : String) (a : Nat)
    {n : Nat} (hn : n ≠ q.components) :
    (Plugin.add st q key a).1.dicts n = st.dicts n := by
  unfold Plugin.add
  rw [appendContrib_dicts, attach_dicts]
  unfold Plugin.ensureKey
  split
  · rfl
  · exact upd_ne _ _ _ hn

theorem appendContrib_lists_frame (st : Heap) (q : Plugin) (key : String)
    (a : Nat) {n : Nat}
    (h : ∀ la, dictLookup (Plugin.dict st q) key = some la → n ≠ la) :
    (Plugin.appendContrib st q key a).1.lists n = st.lists n := by
  unfold Plugin.appendContrib
  cases hla : dictLookup (Plugin.dict st q) key with
  | none => rfl
  | some la =>
    cases st.comps a with
    | none => rfl
    | some c =>
      by_cases hc : c.isComponent = true
      · show (if c.isComponent = true then
            ({ st with lists := upd st.lists la (((st.lists la).getD []) ++ [a]) },
              (none : Option PyError))
          else (st, some PyError.typeError)).1.lists n = st.lists n
        rw [if_pos hc]
        exact upd_ne _ _ _ (h la hla)
      · show (if c.isComponent = true then
            ({ st with lists := upd st.lists la (((st.lists la).getD []) ++ [a]) },
              (none : Option PyError))
          else (st, some PyError.typeError)).1.lists n = st.lists n
        rw [if_neg hc]

theorem ensureKey_lists_lt (st : Heap) (q : Plugin) (key : String) {n : Nat}
    (hn : n < st.next) :
    (Plugin.ensureKey st q key).lists n = st.lists n := by
  unfold Plugin.ensureKey
  split
  · rfl
  · exact upd_ne _ _ _ (Nat.ne_of_lt hn)

theorem ensureKey_eq_of_some (st : Heap) (q : Plugin) (key : String) (la : Nat)
    (h : dictLookup (Plugin.dict st q) key = some la) :
    Plugin.ensureKey st q key = st := by
  unfold Plugin.ensureKey
  simp only [h]

theorem ensureKey_lookup_of_none (st : Heap) (q : Plugin) (key : String)
    (h : dictLookup (Plugin.dict st q) key = none) :
    dictLookup (Plugin.dict (Plugin.ensureKey st q key) q) key = some st.next := by
  unfold Plugin.ensureKey
  simp only [h]
  simp [Plugin.dict, Heap.allocList, upd_self, dictLookup_dictInsert_self]

/-- `add` can mutate only the list object bound (or freshly allocated)
for its key; every other list object is untouched. -/
theorem add_lists_frame (st : Heap) (q : Plugin) (key : String) (a : Nat)
    {n : Nat} (hn : n < st.next)
    (hq : ∀ la, dictLookup (Plugin.dict st q) key = some la → n ≠ la) :
    (Plugin.add st q key a).1.lists n = st.lists n := by
  unfold Plugin.add
  cases hlo : dictLookup (Plugin.dict st q) key with
  | some la =>
    have he : Plugin.ensureKey st q key = st :=
      ensureKey_eq_of_some st q key la hlo
    rw [appendContrib_lists_frame]
    · rw [attach_lists, he]
    · intro la2 hla2
      rw [dict_attach, he, hlo] at hla2
      injection hla2 with hla2
      rw [← hla2]
      exact hq la hlo
  | none =>
    have he2 := ensureKey_lookup_of_none st q key hlo
    rw [appendContrib_lists_frame]
    · rw [attach_lists]
      exact ensureKey_lists_lt st q key hn
    · intro la2 hla2
      rw [dict_attach, he2] at hla2
      injection hla2 with hla2
      rw [← hla2]
      exact Nat.ne_of_lt hn

/-- C9: `copy()` produces a deep, fully independent clone.  The clone
mirrors the original's sets record for record through fresh objects; a
mutating `add` on the clone (of a component object that is not one of
the original's) leaves every `get` of the original and every component
record held by the original untouched; and symmetrically an `add` on
the original leaves the clone's `get` untouched. -/
theorem copy_deep_isolation (st : Heap) (p : Plugin) (k : String) (a : Nat)
    (d : List (String × Nat))
    (hd : st.dicts p.components = some d)
    (hpc : p.components < st.next)
    (hwf : ∀ e ∈ d, e.2 < st.next)
    (hls : ∀ e ∈ d, ∀ b ∈ (st.lists e.2).getD [], b < st.next)
    (hna : ∀ e ∈ d, ∀ b ∈ (st.lists e.2).getD [], b ≠ a) :
    (∀ key, (Plugin.get (Plugin.copy st p).1 (Plugin.copy st p).2 key).map
        (Plugin.copy st p).1.comps
      = (Plugin.get st p key).map
          (fun b => some ((st.comps b).getD ⟨"", [], none⟩))) ∧
    (∀ key, Plugin.get
        (Plugin.add (Plugin.copy st p).1 (Plugin.copy st p).2 k a).1 p key
      = Plugin.get st p key) ∧
    (∀ e ∈ d, ∀ b ∈ (st.lists e.2).getD [],
      (Plugin.add (Plugin.copy st p).1 (Plugin.copy st p).2 k a).1.comps b
        = st.comps b) ∧
    (∀ key, Plugin.get (Plugin.add (Plugin.copy st p).1 p k a).1
        (Plugin.copy st p).2 key
      = Plugin.get (Plugin.copy st p).1 (Plugin.copy st p).2 key) := by
  have hpd : Plugin.dict st p = d := by simp [Plugin.dict, hd]
  have hN : st.next ≤ (copyEntries st (Plugin.dict st p)).1.next :=
    copyEntries_next_le _ _
  have hcN : st.next ≤ (Plugin.copy st p).2.components := copy_components_ge st p
  have hqd : Plugin.dict (Plugin.copy st p).1 (Plugin.copy st p).2
      = (copyEntries st (Plugin.dict st p)).2 := by
    unfold Plugin.dict
    rw [copy_clone_dict]
    rfl
  have hwf2 : ∀ e ∈ Plugin.dict st p, e.2 < st.next := by rw [hpd]; exact hwf
  have hls2 : ∀ e ∈ Plugin.dict st p, ∀ b ∈ (st.lists e.2).getD [],
      b < st.next := by
    rw [hpd]; exact hls
  have hpd2 : Plugin.dict (Plugin.copy st p).1 p = Plugin.dict st p := by
    unfold Plugin.dict
    rw [copy_dicts_lt st p hpc]
  refine ⟨?_, ?_, ?_, ?_⟩
  · intro key
    cases hlk : dictLookup (Plugin.dict st p) key with
    | none =>
      have h1 : Plugin.get st p key = [] := by simp only [Plugin.get, hlk]
      have h2 : Plugin.get (Plugin.copy st p).1 (Plugin.copy st p).2 key = [] := by
        simp only [Plugin.get, hqd, copyEntries_lookup_none st _ key hlk]
      rw [h1, h2]
      rfl
    | some la =>
      obtain ⟨la', hlook, hge, hlt, l', hl', hbnds, hmap⟩ :=
        copyEntries_out st (Plugin.dict st p) hwf2 hls2 key la hlk
      have h1 : Plugin.get st p key = (st.lists la).getD [] := by
        simp only [Plugin.get, hlk]
      have h2 : Plugin.get (Plugin.copy st p).1 (Plugin.copy st p).2 key = l' := by
        simp only [Plugin.get, hqd, hlook]
        show ((copyEntries st (Plugin.dict st p)).1.lists la').getD [] = l'
        rw [hl']
        rfl
      rw [h1, h2]
      exact hmap
  · intro key
    have hstep : Plugin.get (Plugin.copy st p).1 p key = Plugin.get st p key := by
      apply get_congr
      · exact copy_dicts_lt st p hpc
      · intro la hla
        have hmem := dictLookup_mem _ _ _ hla
        rw [hpd] at hmem
        exact copy_lists_lt st p (hwf _ hmem)
    refine Eq.trans ?_ hstep
    apply get_congr
    · exact add_dicts_frame _ _ _ _ (Nat.ne_of_lt (Nat.lt_of_lt_of_le hpc hcN))
    · intro la hla
      rw [hpd2] at hla
      have hmem := dictLookup_mem _ _ _ hla
      rw [hpd] at hmem
      have hlalt : la < st.next := hwf _ hmem
      apply add_lists_frame
      · exact Nat.lt_of_lt_of_le hlalt (le_trans hN (Nat.le_succ _))
      · intro la2 hla2
        rw [hqd] at hla2
        have hmem2 := dictLookup_mem _ _ _ hla2
        exact Nat.ne_of_lt (Nat.lt_of_lt_of_le hlalt
          (copyEntries_vals st (Plugin.dict st p) _ hmem2).1)
  · intro e he b hb
    have hbne : b ≠ a := hna e he b hb
    have hblt : b < st.next := hls e he b hb
    rw [add_comps_frame _ _ _ _ hbne]
    exact copy_comps_lt st p hblt
  · intro key
    apply get_congr
    · exact add_dicts_frame _ _ _ _ (ne_of_gt (Nat.lt_of_lt_of_le hpc hcN))
    · intro la' hla'
      rw [hqd] at hla'
      have hmem2 := dictLookup_mem _ _ _ hla'
      obtain ⟨hge2, hlt2⟩ := copyEntries_vals st (Plugin.dict st p) _ hmem2
      apply add_lists_frame
      · exact Nat.lt_succ_of_lt hlt2
      · intro la2 hla2
        rw [hpd2] at hla2
        have hmem3 := dictLookup_mem _ _ _ hla2
        rw [hpd] at hmem3
        exact ne_of_gt (Nat.lt_of_lt_of_le (hwf _ hmem3) hge2)

/-- Witness for C9: cloning `p0` duplicates the record of component
`"a"`; adding the component at address 4 to the clone under `"j"`
leaves `p0.get("k")` and the record of component 0 untouched, and
adding it to `p0` leaves the clone's `get("k")` untouched. -/
theorem copy_deep_isolation_witness :
    (Plugin.get (Plugin.copy st0 p0).1 (Plugin.copy st0 p0).2 "k").map
        (Plugin.copy st0 p0).1.comps = [some cA] ∧
    Plugin.get
        (Plugin.add (Plugin.copy st0 p0).1 (Plugin.copy st0 p0).2 "j" 4).1 p0 "k"
      = [0] ∧
    (Plugin.add (Plugin.copy st0 p0).1 (Plugin.copy st0 p0).2 "j" 4).1.comps 0
      = some cA ∧
    Plugin.get (Plugin.add (Plugin.copy st0 p0).1 p0 "j" 4).1
        (Plugin.copy st0 p0).2 "k"
      = Plugin.get (Plugin.copy st0 p0).1 (Plugin.copy st0 p0).2 "k" := by
  have h := copy_deep_isolation st0 p0 "j" 4 [("k", 1)] rfl (by decide)
    (by decide) (by decide) (by decide)
  refine ⟨(h.1 "k").trans (by decide), (h.2.1 "k").trans (by decide), ?_, h.2.2.2 "k"⟩
  exact (h.2.2.1 ("k", 1) (by decide) 0 (by decide)).trans (by decide)

end Khimera
